import Mathlib

/-!
Shallow embedding of the line-editing core of `src/src/input.rs`:
the `Input` buffer/cursor state machine and the `History` store.

Machine integers (`usize`) are modelled as `Nat`; `Vec<char>` as `List Char`;
`Option<Vec<char>>` as `Option (List Char)`.  Indexing `values[i]` is modelled
with `List.getD i ' '` (resp. `[]`): every theorem below is stated under the
domain invariant `cursor ≤ values.length`, under which each access the Rust
code performs is in range, so the default is never consulted.  The one fallible
operation, `History.next`, performs `temp.as_ref().unwrap()`; it is embedded
with an `Option` result where `none` is the `unwrap` panic.
-/

namespace Ragout

/-- The `Input` struct of `input.rs` (the debug-log handle, a build-gated
file resource, carries no editing state and is omitted). -/
structure Input where
  values : List Char
  cursor : Nat
  prompt : String
  alt_screen : Bool
  deriving DecidableEq, Repr

/-- The `History` struct of `input.rs` (debug-log handle omitted as above). -/
structure History where
  values : List (List Char)
  cursor : Nat
  temp : Option (List Char)
  deriving DecidableEq, Repr

/-- `Input::new`. -/
def Input.new (prompt : String) (alt_screen : Bool) : Input :=
  { values := [], cursor := 0, prompt := prompt, alt_screen := alt_screen }

/-- `Vec::insert(i, c)`: shifts the elements at and after `i` to the right. -/
def insertAt (l : List Char) (i : Nat) (c : Char) : List Char :=
  l.take i ++ c :: l.drop i

/-- `Input::put_char`. -/
def Input.put_char (s : Input) (c : Char) : Input :=
  match s.values.isEmpty with
  | true => { s with values := s.values ++ [c], cursor := s.cursor + 1 }
  | false =>
    match s.cursor == s.values.length with
    | true => { s with values := s.values ++ [c], cursor := s.cursor + 1 }
    | false => { s with values := insertAt s.values s.cursor c, cursor := s.cursor + 1 }

/-- `Input::backspace`. -/
def Input.backspace (s : Input) : Input :=
  if s.values.isEmpty || s.cursor == 0 then s
  else if s.cursor > 0 then
    { s with values := s.values.eraseIdx (s.cursor - 1), cursor := s.cursor - 1 }
  else s

/-- `Input::to_the_right`. -/
def Input.to_the_right (s : Input) : Input × Bool :=
  if s.values.isEmpty || s.cursor == s.values.length then (s, false)
  else ({ s with cursor := s.cursor + 1 }, true)

/-- `Input::to_the_left`. -/
def Input.to_the_left (s : Input) : Input × Bool :=
  if s.values.isEmpty || s.cursor == 0 then (s, false)
  else ({ s with cursor := s.cursor - 1 }, true)

/-- `Input::to_end`: `diff = len - cursor` (usize subtraction, in range for
`cursor ≤ len`); moves the cursor to `len` when `diff > 0`. -/
def Input.to_end (s : Input) : Input × Nat :=
  let diff := s.values.length - s.cursor
  if diff > 0 then ({ s with cursor := s.values.length }, diff) else (s, diff)

/-- `Input::to_home`. -/
def Input.to_home (s : Input) : Input × Bool :=
  if s.cursor == 0 then (s, false) else ({ s with cursor := 0 }, true)

/-- `Input::clear_line`. -/
def Input.clear_line (s : Input) : Input :=
  { s with values := [], cursor := 0 }

/-- `for _ in 0..n { values.pop() }`: drops the last element `n` times. -/
def popN (l : List Char) : Nat → List Char
  | 0 => l
  | n + 1 => popN l.dropLast n

/-- `Input::clear_right`: pops once per index in `cursor..len`. -/
def Input.clear_right (s : Input) : Input :=
  { s with values := popN s.values (s.values.length - s.cursor) }

/-- `for _ in 0..n { values.remove(0) }`: drops the head `n` times. -/
def removeHeadN (l : List Char) : Nat → List Char
  | 0 => l
  | n + 1 => removeHeadN l.tail n

/-- `Input::clear_left`. -/
def Input.clear_left (s : Input) : Input :=
  { s with values := removeHeadN s.values s.cursor, cursor := 0 }

/-- `Input::STOPPERS` verbatim (the source lists `,` twice); `34` is the
double-quote character and `39` the single-quote character. -/
def STOPPERS : List Char :=
  ['/', ' ', '-', '_', ',', Char.ofNat 34, Char.ofNat 39, ';', ':', '.', ',']

/-- The loop `while cursor + 1 < len && values[cursor + 1] == ' ' { cursor += 1 }`.
`fuel` bounds the iteration count; `values.length - cursor` always suffices,
because the loop body runs only while `cursor + 1 < values.length`. -/
def jumpSpacesAux (values : List Char) : Nat → Nat → Nat
  | 0, cursor => cursor
  | fuel + 1, cursor =>
    if cursor + 1 < values.length ∧ values.getD (cursor + 1) ' ' = ' ' then
      jumpSpacesAux values fuel (cursor + 1)
    else cursor

def jumpSpaces (values : List Char) (cursor : Nat) : Nat :=
  jumpSpacesAux values (values.length - cursor) cursor

/-- The loop `while cursor + 1 < len && !STOPPERS.contains(values[cursor + 1])
{ cursor += 1 }`, with the same fuel convention as `jumpSpacesAux`. -/
def jumpWordAux (values : List Char) : Nat → Nat → Nat
  | 0, cursor => cursor
  | fuel + 1, cursor =>
    if cursor + 1 < values.length ∧ values.getD (cursor + 1) ' ' ∉ STOPPERS then
      jumpWordAux values fuel (cursor + 1)
    else cursor

def jumpWord (values : List Char) (cursor : Nat) : Nat :=
  jumpWordAux values (values.length - cursor) cursor

/-- `Input::to_right_jump`. -/
def Input.to_right_jump (s : Input) : Input :=
  if s.cursor = s.values.length then s
  else
    let i := if s.cursor + 1 < s.values.length then s.cursor + 1 else s.cursor
    if s.values.getD i ' ' = ' ' then
      { s with cursor := jumpSpaces s.values s.cursor }
    else
      { s with cursor := jumpWord s.values s.cursor + 1 }

/-- The loop `while cursor > 0 && values[cursor - 1] == ' ' { cursor -= 1 }`,
by structural recursion on the cursor. -/
def retreatSpaces (values : List Char) : Nat → Nat
  | 0 => 0
  | c + 1 => if values.getD c ' ' = ' ' then retreatSpaces values c else c + 1

/-- The loop `while cursor > 1 && !STOPPERS.contains(values[cursor - 1])
{ cursor -= 1 }`. -/
def retreatWord (values : List Char) : Nat → Nat
  | 0 => 0
  | 1 => 1
  | c + 2 => if values.getD (c + 1) ' ' ∉ STOPPERS then retreatWord values (c + 1) else c + 2

/-- `Input::to_left_jump`. -/
def Input.to_left_jump (s : Input) : Input :=
  if s.cursor = 0 then s
  else if s.values.getD (s.cursor - 1) ' ' = ' ' then
    { s with cursor := retreatSpaces s.values s.cursor }
  else
    { s with cursor := retreatWord s.values s.cursor - 1 }

/-- `History::new`. -/
def History.new : History :=
  { values := [], cursor := 0, temp := none }

/-- `History::prev`: returns the new store, the new buffer value, and the
boolean result. -/
def History.prev (h : History) (value : List Char) : History × List Char × Bool :=
  if h.cursor = 0 then (h, value, false)
  else
    let t := if h.temp = none ∨ h.cursor = h.values.length then some value else h.temp
    ({ h with temp := t, cursor := h.cursor - 1 }, h.values.getD (h.cursor - 1) [], true)

/-- `History::next`; `none` is the panic of `temp.as_ref().unwrap()`. -/
def History.next (h : History) (value : List Char) : Option (History × List Char × Bool) :=
  if h.cursor = h.values.length then some (h, value, false)
  else if h.cursor + 1 = h.values.length then
    match h.temp with
    | none => none
    | some t => some ({ h with cursor := h.cursor + 1 }, t, true)
  else some ({ h with cursor := h.cursor + 1 }, h.values.getD (h.cursor + 1) [], true)

/-- `History::push`. -/
def History.push (h : History) (value : List Char) : History :=
  let vs :=
    if 0 < (value.filter (fun c => c ≠ ' ')).length ∧ value ∉ h.values then
      h.values ++ [value]
    else h.values
  { values := vs, cursor := vs.length, temp := none }

/-- `Input::cr_lf`: pushes a copy of the buffer into history, drains the
buffer into the returned user-input string, and resets the cursor. -/
def Input.cr_lf (s : Input) (h : History) : Input × History × List Char :=
  ({ s with values := [], cursor := 0 }, h.push s.values, s.values)

/-- Standard UTF-8 encoding of a Unicode scalar value, as a list of byte
values (RFC 3629 layout).  This is the behaviour of Rust's
`char::encode_utf8`, the external standard-library encoder the source
delegates to for non-ASCII characters. -/
def utf8Std (c : Char) : List Nat :=
  let n := c.toNat
  if n < 0x80 then [n]
  else if n < 0x800 then
    [0xC0 + n / 0x40, 0x80 + n % 0x40]
  else if n < 0x10000 then
    [0xE0 + n / 0x1000, 0x80 + n / 0x40 % 0x40, 0x80 + n % 0x40]
  else
    [0xF0 + n / 0x40000, 0x80 + n / 0x1000 % 0x40, 0x80 + n / 0x40 % 0x40, 0x80 + n % 0x40]

/-- `encode_char` of `input.rs`: for an ASCII character pushes the single
byte `c as u8` (truncation to 8 bits, modelled as `% 256`); otherwise
extends with the multi-byte UTF-8 form produced by `char::encode_utf8`. -/
def encode_char (c : Char) (bytes : List Nat) : List Nat :=
  match decide (c.toNat ≤ 0x7F) with
  | false => bytes ++ utf8Std c
  | true => bytes ++ [c.toNat % 256]

/-- `str_to_bytes` of `input.rs`: folds `encode_char` over the characters. -/
def str_to_bytes (s : List Char) : List Nat :=
  s.foldl (fun bytes c => encode_char c bytes) []

/-! ### Reachable states

`IReach` (resp. `HReach`) is the set of `Input` (resp. `History`) states
reachable from `Input::new` (resp. `History::new`) by finite sequences of
the public operations, with arbitrary arguments.  A `History.next` call
whose `unwrap` panics produces no successor state. -/

inductive HReach : History → Prop
  | new : HReach History.new
  | prev (h : History) (buf : List Char) : HReach h → HReach (h.prev buf).1
  | next (h : History) (buf : List Char) (r : History × List Char × Bool) :
      HReach h → h.next buf = some r → HReach r.1
  | push (h : History) (buf : List Char) : HReach h → HReach (h.push buf)

inductive IReach : Input → Prop
  | new (p : String) (a : Bool) : IReach (Input.new p a)
  | put_char (s : Input) (c : Char) : IReach s → IReach (s.put_char c)
  | backspace (s : Input) : IReach s → IReach s.backspace
  | to_the_right (s : Input) : IReach s → IReach (s.to_the_right).1
  | to_the_left (s : Input) : IReach s → IReach (s.to_the_left).1
  | to_end (s : Input) : IReach s → IReach (s.to_end).1
  | to_home (s : Input) : IReach s → IReach (s.to_home).1
  | clear_line (s : Input) : IReach s → IReach s.clear_line
  | clear_right (s : Input) : IReach s → IReach s.clear_right
  | clear_left (s : Input) : IReach s → IReach s.clear_left
  | to_right_jump (s : Input) : IReach s → IReach s.to_right_jump
  | to_left_jump (s : Input) : IReach s → IReach s.to_left_jump
  | cr_lf (s : Input) (h : History) : IReach s → IReach (s.cr_lf h).1

/-! ### Characterisation of the four word-jump loops -/

theorem jumpSpacesAux_ge (values : List Char) :
    ∀ fuel cursor, cursor ≤ jumpSpacesAux values fuel cursor := by
  intro fuel
  induction fuel with
  | zero => intro cursor; exact Nat.le_refl _
  | succ n ih =>
    intro cursor
    simp only [jumpSpacesAux]
    split
    · exact Nat.le_trans (Nat.le_succ cursor) (ih (cursor + 1))
    · exact Nat.le_refl _

theorem jumpSpacesAux_lt (values : List Char) :
    ∀ fuel cursor, cursor < values.length → jumpSpacesAux values fuel cursor < values.length := by
  intro fuel
  induction fuel with
  | zero => intro cursor hc; exact hc
  | succ n ih =>
    intro cursor hc
    simp only [jumpSpacesAux]
    split
    · next h => exact ih (cursor + 1) h.1
    · exact hc

theorem jumpSpacesAux_spaces (values : List Char) :
    ∀ fuel cursor j, cursor < j → j ≤ jumpSpacesAux values fuel cursor →
      values.getD j ' ' = ' ' := by
  intro fuel
  induction fuel with
  | zero =>
    intro cursor j h1 h2
    simp only [jumpSpacesAux] at h2
    exact ((Nat.not_lt.mpr h2) h1).elim
  | succ n ih =>
    intro cursor j h1 h2
    simp only [jumpSpacesAux] at h2
    split at h2
    · next h =>
      rcases Nat.lt_or_ge (cursor + 1) j with hj | hj
      · exact ih (cursor + 1) j hj h2
      · have : j = cursor + 1 := by omega
        rw [this]; exact h.2
    · exact ((Nat.not_lt.mpr h2) h1).elim

theorem jumpSpacesAux_stop (values : List Char) :
    ∀ fuel cursor, values.length - cursor ≤ fuel →
      ¬(jumpSpacesAux values fuel cursor + 1 < values.length ∧
        values.getD (jumpSpacesAux values fuel cursor + 1) ' ' = ' ') := by
  intro fuel
  induction fuel with
  | zero =>
    intro cursor hf hc
    simp only [jumpSpacesAux] at hc
    omega
  | succ n ih =>
    intro cursor hf
    simp only [jumpSpacesAux]
    split
    · next h => exact ih (cursor + 1) (by omega)
    · next h => exact h

theorem jumpWordAux_ge (values : List Char) :
    ∀ fuel cursor, cursor ≤ jumpWordAux values fuel cursor := by
  intro fuel
  induction fuel with
  | zero => intro cursor; exact Nat.le_refl _
  | succ n ih =>
    intro cursor
    simp only [jumpWordAux]
    split
    · exact Nat.le_trans (Nat.le_succ cursor) (ih (cursor + 1))
    · exact Nat.le_refl _

theorem jumpWordAux_lt (values : List Char) :
    ∀ fuel cursor, cursor < values.length → jumpWordAux values fuel cursor < values.length := by
  intro fuel
  induction fuel with
  | zero => intro cursor hc; exact hc
  | succ n ih =>
    intro cursor hc
    simp only [jumpWordAux]
    split
    · next h => exact ih (cursor + 1) h.1
    · exact hc

theorem jumpWordAux_chars (values : List Char) :
    ∀ fuel cursor j, cursor < j → j ≤ jumpWordAux values fuel cursor →
      values.getD j ' ' ∉ STOPPERS := by
  intro fuel
  induction fuel with
  | zero =>
    intro cursor j h1 h2
    simp only [jumpWordAux] at h2
    exact ((Nat.not_lt.mpr h2) h1).elim
  | succ n ih =>
    intro cursor j h1 h2
    simp only [jumpWordAux] at h2
    split at h2
    · next h =>
      rcases Nat.lt_or_ge (cursor + 1) j with hj | hj
      · exact ih (cursor + 1) j hj h2
      · have : j = cursor + 1 := by omega
        rw [this]; exact h.2
    · exact ((Nat.not_lt.mpr h2) h1).elim

theorem jumpWordAux_stop (values : List Char) :
    ∀ fuel cursor, values.length - cursor ≤ fuel →
      ¬(jumpWordAux values fuel cursor + 1 < values.length ∧
        values.getD (jumpWordAux values fuel cursor + 1) ' ' ∉ STOPPERS) := by
  intro fuel
  induction fuel with
  | zero =>
    intro cursor hf hc
    simp only [jumpWordAux] at hc
    omega
  | succ n ih =>
    intro cursor hf
    simp only [jumpWordAux]
    split
    · next h => exact ih (cursor + 1) (by omega)
    · next h => exact h

theorem jumpSpaces_ge (values : List Char) (cursor : Nat) :
    cursor ≤ jumpSpaces values cursor :=
  jumpSpacesAux_ge values _ cursor

theorem jumpSpaces_lt (values : List Char) (cursor : Nat) (h : cursor < values.length) :
    jumpSpaces values cursor < values.length :=
  jumpSpacesAux_lt values _ cursor h

theorem jumpSpaces_spaces (values : List Char) (cursor : Nat) :
    ∀ j, cursor < j → j ≤ jumpSpaces values cursor → values.getD j ' ' = ' ' :=
  fun j h1 h2 => jumpSpacesAux_spaces values _ cursor j h1 h2

theorem jumpSpaces_stop (values : List Char) (cursor : Nat) :
    ¬(jumpSpaces values cursor + 1 < values.length ∧
      values.getD (jumpSpaces values cursor + 1) ' ' = ' ') :=
  jumpSpacesAux_stop values _ cursor (Nat.le_refl _)

theorem jumpWord_ge (values : List Char) (cursor : Nat) :
    cursor ≤ jumpWord values cursor :=
  jumpWordAux_ge values _ cursor

theorem jumpWord_lt (values : List Char) (cursor : Nat) (h : cursor < values.length) :
    jumpWord values cursor < values.length :=
  jumpWordAux_lt values _ cursor h

theorem jumpWord_chars (values : List Char) (cursor : Nat) :
    ∀ j, cursor < j → j ≤ jumpWord values cursor → values.getD j ' ' ∉ STOPPERS :=
  fun j h1 h2 => jumpWordAux_chars values _ cursor j h1 h2

theorem jumpWord_stop (values : List Char) (cursor : Nat) :
    ¬(jumpWord values cursor + 1 < values.length ∧
      values.getD (jumpWord values cursor + 1) ' ' ∉ STOPPERS) :=
  jumpWordAux_stop values _ cursor (Nat.le_refl _)

theorem retreatSpaces_le (values : List Char) :
    ∀ cursor, retreatSpaces values cursor ≤ cursor := by
  intro cursor
  induction cursor with
  | zero => exact Nat.le_refl _
  | succ c ih =>
    simp only [retreatSpaces]
    split
    · exact Nat.le_trans ih (Nat.le_succ c)
    · exact Nat.le_refl _

theorem retreatSpaces_spaces (values : List Char) :
    ∀ cursor j, retreatSpaces values cursor ≤ j → j < cursor → values.getD j ' ' = ' ' := by
  intro cursor
  induction cursor with
  | zero => intro j h1 h2; omega
  | succ c ih =>
    intro j h1 h2
    simp only [retreatSpaces] at h1
    split at h1
    · next h =>
      rcases Nat.lt_or_ge j c with hj | hj
      · exact ih j h1 hj
      · have : j = c := by omega
        rw [this]; exact h
    · omega

theorem retreatSpaces_stop (values : List Char) :
    ∀ cursor, ¬(0 < retreatSpaces values cursor ∧
      values.getD (retreatSpaces values cursor - 1) ' ' = ' ') := by
  intro cursor
  induction cursor with
  | zero => intro hc; simp [retreatSpaces] at hc
  | succ c ih =>
    simp only [retreatSpaces]
    split
    · exact ih
    · next h => intro hc; exact h (by simpa using hc.2)

theorem retreatWord_le (values : List Char) :
    ∀ cursor, retreatWord values cursor ≤ cursor := by
  intro cursor
  induction cursor using Nat.strong_induction_on with
  | _ c ih =>
    match c with
    | 0 => exact Nat.le_refl _
    | 1 => exact Nat.le_refl _
    | c + 2 =>
      simp only [retreatWord]
      split
      · exact Nat.le_trans (ih (c + 1) (by omega)) (by omega)
      · exact Nat.le_refl _

theorem retreatWord_pos (values : List Char) :
    ∀ cursor, 1 ≤ cursor → 1 ≤ retreatWord values cursor := by
  intro cursor
  induction cursor using Nat.strong_induction_on with
  | _ c ih =>
    match c with
    | 0 => intro h; omega
    | 1 => intro _; exact Nat.le_refl _
    | c + 2 =>
      intro _
      simp only [retreatWord]
      split
      · exact ih (c + 1) (by omega) (by omega)
      · omega

theorem retreatWord_chars (values : List Char) :
    ∀ cursor j, retreatWord values cursor ≤ j → j < cursor →
      values.getD j ' ' ∉ STOPPERS := by
  intro cursor
  induction cursor using Nat.strong_induction_on with
  | _ c ih =>
    match c with
    | 0 => intro j h1 h2; omega
    | 1 =>
      intro j h1 h2
      simp only [retreatWord] at h1
      exact absurd h2 (Nat.not_lt.mpr h1)
    | c + 2 =>
      intro j h1 h2
      simp only [retreatWord] at h1
      split at h1
      · next h =>
        rcases Nat.lt_or_ge j (c + 1) with hj | hj
        · exact ih (c + 1) (by omega) j h1 hj
        · have : j = c + 1 := by omega
          rw [this]; exact h
      · omega

theorem retreatWord_stop (values : List Char) :
    ∀ cursor, ¬(1 < retreatWord values cursor ∧
      values.getD (retreatWord values cursor - 1) ' ' ∉ STOPPERS) := by
  intro cursor
  induction cursor using Nat.strong_induction_on with
  | _ c ih =>
    match c with
    | 0 => intro hc; simp [retreatWord] at hc
    | 1 => intro hc; simp [retreatWord] at hc
    | c + 2 =>
      simp only [retreatWord]
      split
      · exact ih (c + 1) (by omega)
      · next h => intro hc; exact hc.2 (by simpa using not_not.mp h)

/-! ### Cursor-domain invariants of the reachable states -/

theorem popN_length : ∀ (n : Nat) (l : List Char), (popN l n).length = l.length - n := by
  intro n
  induction n with
  | zero => intro l; rfl
  | succ m ih =>
    intro l
    simp only [popN]
    rw [ih l.dropLast, List.length_dropLast]
    omega

theorem hreach_cursor_le (h : History) (hr : HReach h) :
    h.cursor ≤ h.values.length ∧ (h.cursor < h.values.length → h.temp.isSome) := by
  induction hr with
  | new => exact ⟨Nat.le_refl _, fun hc => absurd hc (by simp [History.new])⟩
  | prev h buf _ ih =>
    simp only [History.prev]
    split
    · exact ih
    · next hc =>
      refine ⟨by simp; omega, fun _ => ?_⟩
      split
      · simp
      · next ht =>
        simp only [not_or] at ht
        simpa using Option.isSome_iff_ne_none.mpr ht.1
  | next h buf r _ heq ih =>
    simp only [History.next] at heq
    split at heq
    · next hc =>
      cases heq
      exact ih
    · split at heq
      · next hc1 =>
        match ht : h.temp with
        | none => rw [ht] at heq; cases heq
        | some t =>
          rw [ht] at heq
          cases heq
          refine ⟨by simp; omega, fun hlt => ?_⟩
          simp at hlt
          omega
      · next hc0 hc1 =>
        cases heq
        refine ⟨by simp; omega, fun _ => ?_⟩
        simp only
        exact ih.2 (Nat.lt_of_le_of_ne ih.1 hc0)
  | push h buf _ ih =>
    simp only [History.push]
    exact ⟨Nat.le_refl _, fun hc => absurd hc (by simp)⟩

theorem ireach_cursor_le (s : Input) (hs : IReach s) : s.cursor ≤ s.values.length := by
  induction hs with
  | new p a => exact Nat.le_refl _
  | put_char s c _ ih =>
    simp only [Input.put_char]
    split
    · simp; omega
    · split
      · simp; omega
      · simp [insertAt]; omega
  | backspace s _ ih =>
    simp only [Input.backspace]
    split
    · exact ih
    · split
      · next hne hpos =>
        simp only [Bool.or_eq_true, List.isEmpty_iff, beq_iff_eq, not_or] at hne
        have hlen : 0 < s.values.length := List.length_pos.mpr hne.1
        have : (s.values.eraseIdx (s.cursor - 1)).length + 1 = s.values.length :=
          List.length_eraseIdx_add_one (by omega)
        simp only
        omega
      · exact ih
  | to_the_right s _ ih =>
    simp only [Input.to_the_right]
    split
    · exact ih
    · next hne =>
      simp only [Bool.or_eq_true, List.isEmpty_iff, beq_iff_eq, not_or] at hne
      simp only
      omega
  | to_the_left s _ ih =>
    simp only [Input.to_the_left]
    split
    · exact ih
    · simp only
      omega
  | to_end s _ ih =>
    simp only [Input.to_end]
    split
    · exact Nat.le_refl _
    · exact ih
  | to_home s _ ih =>
    simp only [Input.to_home]
    split
    · exact ih
    · exact Nat.zero_le _
  | clear_line s _ ih => exact Nat.zero_le _
  | clear_right s _ ih =>
    simp only [Input.clear_right, popN_length]
    omega
  | clear_left s _ ih => exact Nat.zero_le _
  | to_right_jump s _ ih =>
    simp only [Input.to_right_jump]
    split
    · exact ih
    · next hne =>
      have hlt : s.cursor < s.values.length := Nat.lt_of_le_of_ne ih hne
      split
      · split
        · exact Nat.le_of_lt (jumpSpaces_lt s.values s.cursor hlt)
        · exact jumpWord_lt s.values s.cursor hlt
      · split
        · exact Nat.le_of_lt (jumpSpaces_lt s.values s.cursor hlt)
        · exact jumpWord_lt s.values s.cursor hlt
  | to_left_jump s _ ih =>
    simp only [Input.to_left_jump]
    split
    · exact ih
    · split
      · exact Nat.le_trans (retreatSpaces_le s.values s.cursor) ih
      · have := retreatWord_le s.values s.cursor
        simp only
        omega
  | cr_lf s h _ ih => exact Nat.zero_le _

theorem hreach_nodup_nonblank (h : History) (hr : HReach h) :
    h.values.Nodup ∧ ∀ v ∈ h.values, ∃ c ∈ v, c ≠ ' ' := by
  induction hr with
  | new => exact ⟨List.nodup_nil, by simp [History.new]⟩
  | prev h buf _ ih =>
    simp only [History.prev]
    split
    · exact ih
    · exact ih
  | next h buf r _ heq ih =>
    simp only [History.next] at heq
    split at heq
    · cases heq; exact ih
    · split at heq
      · match ht : h.temp with
        | none => rw [ht] at heq; cases heq
        | some t => rw [ht] at heq; cases heq; exact ih
      · cases heq; exact ih
  | push h buf _ ih =>
    simp only [History.push]
    split
    · next hcond =>
      constructor
      · rw [List.nodup_append]
        refine ⟨ih.1, List.nodup_singleton buf, ?_⟩
        intro a ha hb
        rw [List.mem_singleton] at hb
        subst hb
        exact hcond.2 ha
      · intro v hv
        rcases List.mem_append.mp hv with hv | hv
        · exact ih.2 v hv
        · rw [List.mem_singleton] at hv
          subst hv
          have hne : v.filter (fun c => c ≠ ' ') ≠ [] :=
            List.ne_nil_of_length_pos hcond.1
          obtain ⟨c, hc⟩ := List.exists_mem_of_ne_nil _ hne
          have := List.mem_filter.mp hc
          exact ⟨c, this.1, by simpa using this.2⟩
    · exact ih

/-! ### The claims -/

/-- C1: in every `History` state reachable from `History::new` by `prev`,
`next` and `push` (with arbitrary buffers), `cursor < len(values)` implies
the draft `temp` is `Some`; hence the `temp.as_ref().unwrap()` in
`History::next` never fails — `next` (embedded with `none` as that panic)
always returns `some`. -/
theorem next_unwrap_never_fails (h : History) (buf : List Char) (hr : HReach h) :
    (h.cursor < h.values.length → h.temp.isSome) ∧ (h.next buf).isSome := by
  obtain ⟨hle, htemp⟩ := hreach_cursor_le h hr
  refine ⟨htemp, ?_⟩
  simp only [History.next]
  split
  · simp
  · next hne =>
    split
    · next h1 =>
      match ht : h.temp with
      | none =>
        have := htemp (Nat.lt_of_le_of_ne hle hne)
        rw [ht] at this
        simp at this
      | some t => simp
    · simp

theorem next_unwrap_never_fails_witness :
    (History.new.next []).isSome :=
  (next_unwrap_never_fails History.new [] HReach.new).2

/-- C2: every `Input` state reachable from `Input::new` by the editing
operations, and every `History` state reachable from `History::new` by
`prev`/`next`/`push`, satisfies `0 ≤ cursor ≤ len(values)` (the lower bound
is the `Nat` domain). -/
theorem reachable_cursor_bounds (s : Input) (h : History)
    (hs : IReach s) (hh : HReach h) :
    s.cursor ≤ s.values.length ∧ h.cursor ≤ h.values.length :=
  ⟨ireach_cursor_le s hs, (hreach_cursor_le h hh).1⟩

theorem reachable_cursor_bounds_witness :
    ((Input.new "" false).put_char 'a').cursor ≤
      ((Input.new "" false).put_char 'a').values.length ∧
    (History.new.push ['a']).cursor ≤ (History.new.push ['a']).values.length :=
  reachable_cursor_bounds _ _
    (IReach.put_char _ 'a' (IReach.new "" false))
    (HReach.push _ ['a'] HReach.new)

/-- C3 counterexample: the code's blank filter checks only the space
character, so pushing the single-tab buffer (tab is whitespace but not a
space) stores a reachable entry composed entirely of whitespace characters,
refuting the claim as stated. -/
theorem whitespace_entry_reachable_cex :
    HReach (History.new.push [Char.ofNat 9]) ∧
    [Char.ofNat 9] ∈ (History.new.push [Char.ofNat 9]).values ∧
    ∀ c ∈ [Char.ofNat 9], c.isWhitespace :=
  ⟨HReach.push _ _ HReach.new, by decide, by decide⟩

theorem count_one_of_nodup_mem (l : List (List Char)) (a : List Char)
    (hnd : l.Nodup) (ha : a ∈ l) : l.count a = 1 := by
  induction l with
  | nil => cases ha
  | cons b t ih =>
    rw [List.nodup_cons] at hnd
    rw [List.count_cons]
    rcases List.mem_cons.mp ha with rfl | hat
    · rw [List.count_eq_zero.mpr hnd.1]
      simp
    · rw [ih hnd.2 hat]
      have hne : ¬ b = a := by
        rintro rfl
        exact hnd.1 hat
      simp [hne]

/-- C3 (amended): in every reachable `History` state, `values` contains no
two identical entries and no entry composed entirely of *space* characters
`' '`; in particular, pushing the same content with at least one non-space
character twice leaves exactly one copy of it in `values`. -/
theorem hist_values_nodup_no_all_space (h : History) (hr : HReach h) :
    h.values.Nodup ∧ (∀ v ∈ h.values, ∃ c ∈ v, c ≠ ' ') ∧
    ∀ v : List Char, (∃ c ∈ v, c ≠ ' ') →
      ((h.push v).push v).values.count v = 1 := by
  obtain ⟨hnd, hblank⟩ := hreach_nodup_nonblank h hr
  refine ⟨hnd, hblank, ?_⟩
  intro v hv
  have hr2 : HReach ((h.push v).push v) :=
    HReach.push _ v (HReach.push h v hr)
  have hmem1 : v ∈ (h.push v).values := by
    simp only [History.push]
    split
    · exact List.mem_append.mpr (Or.inr (List.mem_singleton.mpr rfl))
    · next hcond =>
      rw [not_and_or] at hcond
      rcases hcond with hc | hc
      · exfalso
        obtain ⟨c, hcv, hcne⟩ := hv
        have : c ∈ v.filter (fun c => c ≠ ' ') :=
          List.mem_filter.mpr ⟨hcv, by simpa using hcne⟩
        exact hc (List.length_pos.mpr (List.ne_nil_of_mem this))
      · exact not_not.mp hc
  have hmem2 : v ∈ ((h.push v).push v).values := by
    have hstep : ∀ (g : History), v ∈ g.values → v ∈ (g.push v).values := by
      intro g hg
      simp only [History.push]
      split
      · exact List.mem_append.mpr (Or.inl hg)
      · exact hg
    exact hstep (h.push v) hmem1
  exact count_one_of_nodup_mem _ _ (hreach_nodup_nonblank _ hr2).1 hmem2

theorem hist_values_nodup_no_all_space_witness :
    ((History.new.push ['a', 'b']).push ['a', 'b']).values.count ['a', 'b'] = 1 :=
  (hist_values_nodup_no_all_space History.new HReach.new).2.2 ['a', 'b'] (by decide)

/-- C4: for `cursor < len(values)`, `Input::to_right_jump` leaves the
buffer contents unchanged and inspects the character at index
`min(cursor+1, len-1)`.  If it is a space, the cursor advances exactly
through the run of spaces (every index passed over holds a space, and it
stops at the first non-space or at `cursor+1 = len`); otherwise the cursor
advances while the next character is not a stopper, then once more, ending
at `len(values)` or on a stopper.  For `cursor = len(values)` the operation
changes nothing. -/
theorem to_right_jump_spec (s : Input) (_hle : s.cursor ≤ s.values.length) :
    (s.cursor = s.values.length → s.to_right_jump = s) ∧
    (s.cursor < s.values.length →
      s.to_right_jump.values = s.values ∧
      (s.values.getD (min (s.cursor + 1) (s.values.length - 1)) ' ' = ' ' →
        s.cursor ≤ s.to_right_jump.cursor ∧
        (∀ j, s.cursor < j → j ≤ s.to_right_jump.cursor →
          s.values.getD j ' ' = ' ') ∧
        ¬(s.to_right_jump.cursor + 1 < s.values.length ∧
          s.values.getD (s.to_right_jump.cursor + 1) ' ' = ' ')) ∧
      (s.values.getD (min (s.cursor + 1) (s.values.length - 1)) ' ' ≠ ' ' →
        ∃ m, s.cursor ≤ m ∧
          (∀ j, s.cursor < j → j ≤ m → s.values.getD j ' ' ∉ STOPPERS) ∧
          ¬(m + 1 < s.values.length ∧ s.values.getD (m + 1) ' ' ∉ STOPPERS) ∧
          s.to_right_jump.cursor = m + 1 ∧
          (s.to_right_jump.cursor = s.values.length ∨
            s.values.getD s.to_right_jump.cursor ' ' ∈ STOPPERS))) := by
  constructor
  · intro he
    simp [Input.to_right_jump, he]
  · intro hlt
    have hne : ¬ s.cursor = s.values.length := Nat.ne_of_lt hlt
    have hidx : (if s.cursor + 1 < s.values.length then s.cursor + 1 else s.cursor)
        = min (s.cursor + 1) (s.values.length - 1) := by
      split <;> omega
    have hunf : s.to_right_jump =
        if s.values.getD (min (s.cursor + 1) (s.values.length - 1)) ' ' = ' ' then
          { s with cursor := jumpSpaces s.values s.cursor }
        else { s with cursor := jumpWord s.values s.cursor + 1 } := by
      simp only [Input.to_right_jump, if_neg hne]
      rw [hidx]
    by_cases hsp : s.values.getD (min (s.cursor + 1) (s.values.length - 1)) ' ' = ' '
    · rw [hunf, if_pos hsp]
      exact ⟨rfl,
        fun _ => ⟨jumpSpaces_ge s.values s.cursor,
          fun j hj1 hj2 => jumpSpaces_spaces s.values s.cursor j hj1 hj2,
          jumpSpaces_stop s.values s.cursor⟩,
        fun hq => absurd hsp hq⟩
    · rw [hunf, if_neg hsp]
      refine ⟨rfl, fun hq => absurd hq hsp, fun _ => ?_⟩
      refine ⟨jumpWord s.values s.cursor, jumpWord_ge s.values s.cursor,
        fun j hj1 hj2 => jumpWord_chars s.values s.cursor j hj1 hj2,
        jumpWord_stop s.values s.cursor, rfl, ?_⟩
      have hm := jumpWord_lt s.values s.cursor hlt
      rcases Nat.lt_or_ge (jumpWord s.values s.cursor + 1) s.values.length with hc | hc
      · right
        show s.values.getD (jumpWord s.values s.cursor + 1) ' ' ∈ STOPPERS
        by_contra hmem
        exact jumpWord_stop s.values s.cursor ⟨hc, hmem⟩
      · left
        show jumpWord s.values s.cursor + 1 = s.values.length
        omega

theorem to_right_jump_spec_witness :
    ({ values := ['a', 'b'], cursor := 0, prompt := "",
       alt_screen := false } : Input).to_right_jump.values = ['a', 'b'] :=
  ((to_right_jump_spec _ (by decide)).2 (by decide)).1

/-- C5: for `cursor > 0`, `Input::to_left_jump` leaves the buffer contents
unchanged and inspects the character at `cursor-1`.  If it is a space, the
cursor retreats exactly through the run of spaces; otherwise it retreats
while `cursor > 1` and the character left of the cursor is not a stopper
(never going below index 1 in that loop), then retreats once more, landing
at index 0 or on a stopper character.  For `cursor = 0` the operation
changes nothing. -/
theorem to_left_jump_spec (s : Input) (_hle : s.cursor ≤ s.values.length) :
    (s.cursor = 0 → s.to_left_jump = s) ∧
    (0 < s.cursor →
      s.to_left_jump.values = s.values ∧
      (s.values.getD (s.cursor - 1) ' ' = ' ' →
        s.to_left_jump.cursor ≤ s.cursor ∧
        (∀ j, s.to_left_jump.cursor ≤ j → j < s.cursor →
          s.values.getD j ' ' = ' ') ∧
        ¬(0 < s.to_left_jump.cursor ∧
          s.values.getD (s.to_left_jump.cursor - 1) ' ' = ' ')) ∧
      (s.values.getD (s.cursor - 1) ' ' ≠ ' ' →
        ∃ m, 1 ≤ m ∧ m ≤ s.cursor ∧
          (∀ j, m ≤ j → j < s.cursor → s.values.getD j ' ' ∉ STOPPERS) ∧
          ¬(1 < m ∧ s.values.getD (m - 1) ' ' ∉ STOPPERS) ∧
          s.to_left_jump.cursor = m - 1 ∧
          (s.to_left_jump.cursor = 0 ∨
            s.values.getD s.to_left_jump.cursor ' ' ∈ STOPPERS))) := by
  constructor
  · intro he
    simp [Input.to_left_jump, he]
  · intro hpos
    have hne : ¬ s.cursor = 0 := by omega
    by_cases hsp : s.values.getD (s.cursor - 1) ' ' = ' '
    · have hunf : s.to_left_jump = { s with cursor := retreatSpaces s.values s.cursor } := by
        simp only [Input.to_left_jump, if_neg hne, if_pos hsp]
      rw [hunf]
      exact ⟨rfl,
        fun _ => ⟨retreatSpaces_le s.values s.cursor,
          fun j hj1 hj2 => retreatSpaces_spaces s.values s.cursor j hj1 hj2,
          retreatSpaces_stop s.values s.cursor⟩,
        fun hq => absurd hsp hq⟩
    · have hunf : s.to_left_jump = { s with cursor := retreatWord s.values s.cursor - 1 } := by
        simp only [Input.to_left_jump, if_neg hne, if_neg hsp]
      rw [hunf]
      refine ⟨rfl, fun hq => absurd hq hsp, fun _ => ?_⟩
      refine ⟨retreatWord s.values s.cursor, retreatWord_pos s.values s.cursor hpos,
        retreatWord_le s.values s.cursor,
        fun j hj1 hj2 => retreatWord_chars s.values s.cursor j hj1 hj2,
        retreatWord_stop s.values s.cursor, rfl, ?_⟩
      rcases Nat.lt_or_ge 1 (retreatWord s.values s.cursor) with hm | hm
      · right
        show s.values.getD (retreatWord s.values s.cursor - 1) ' ' ∈ STOPPERS
        by_contra hmem
        exact retreatWord_stop s.values s.cursor ⟨hm, hmem⟩
      · left
        show retreatWord s.values s.cursor - 1 = 0
        omega

theorem to_left_jump_spec_witness :
    ({ values := ['a', 'b'], cursor := 2, prompt := "",
       alt_screen := false } : Input).to_left_jump.values = ['a', 'b'] :=
  ((to_left_jump_spec _ (by decide)).2 (by decide)).1

/-- C6: Scenario F.  With history `["alpha"]` at the live position and a
current buffer `"beta"`, `prev` yields buffer `"alpha"`, saves the draft
`temp = Some "beta")` and returns true; the following `next` restores the
buffer `"beta"`, returns the cursor to the live position `1`, and returns
true. -/
theorem scenario_prev_next_roundtrip :
    ({ values := [['a', 'l', 'p', 'h', 'a']], cursor := 1,
       temp := none } : History).prev ['b', 'e', 't', 'a']
      = ({ values := [['a', 'l', 'p', 'h', 'a']], cursor := 0,
           temp := some ['b', 'e', 't', 'a'] }, ['a', 'l', 'p', 'h', 'a'], true) ∧
    ({ values := [['a', 'l', 'p', 'h', 'a']], cursor := 0,
       temp := some ['b', 'e', 't', 'a'] } : History).next ['a', 'l', 'p', 'h', 'a']
      = some ({ values := [['a', 'l', 'p', 'h', 'a']], cursor := 1,
                temp := some ['b', 'e', 't', 'a'] }, ['b', 'e', 't', 'a'], true) := by
  constructor <;> rfl

/-- C7: `History::prev` returns false and changes neither the store nor the
buffer when `cursor = 0`; otherwise it snapshots the buffer into `temp`
exactly when `temp` was `None` or `cursor = len(values)`, sets the buffer to
`values[cursor-1]`, decrements the cursor, and returns true.  Stated under
the domain invariant `cursor ≤ len(values)` of reachable stores, under which
the index `cursor - 1` is in range. -/
theorem prev_spec (h : History) (buf : List Char)
    (_hle : h.cursor ≤ h.values.length) :
    (h.cursor = 0 → h.prev buf = (h, buf, false)) ∧
    (0 < h.cursor →
      h.prev buf =
        ({ values := h.values, cursor := h.cursor - 1,
           temp := if h.temp = none ∨ h.cursor = h.values.length then some buf
                   else h.temp },
         h.values.getD (h.cursor - 1) [], true)) := by
  constructor
  · intro he
    simp [History.prev, he]
  · intro hpos
    have hne : ¬ h.cursor = 0 := by omega
    simp only [History.prev, if_neg hne]

theorem prev_spec_witness :
    ({ values := [['a']], cursor := 1, temp := none } : History).prev ['b']
      = ({ values := [['a']], cursor := 0, temp := some ['b'] }, ['a'], true) := by
  have step := (prev_spec { values := [['a']], cursor := 1, temp := none } ['b']
    (by decide)).2 (by decide)
  simpa using step

/-- C8: pushing a candidate composed solely of spaces leaves `values`
unchanged, and every push — whether or not the candidate was added — clears
`temp` and resets the cursor to the live position `len(values)`. -/
theorem push_blank_reset (h : History) (v : List Char) :
    ((∀ c ∈ v, c = ' ') → (h.push v).values = h.values) ∧
    (h.push v).temp = none ∧
    (h.push v).cursor = (h.push v).values.length := by
  refine ⟨?_, rfl, rfl⟩
  intro hall
  have hcond : ¬ (0 < (v.filter (fun c => c ≠ ' ')).length ∧ v ∉ h.values) := by
    rintro ⟨hpos, -⟩
    obtain ⟨c, hc⟩ := List.exists_mem_of_ne_nil _ (List.ne_nil_of_length_pos hpos)
    have hmf := List.mem_filter.mp hc
    exact absurd (hall c hmf.1) (by simpa using hmf.2)
  simp only [History.push, if_neg hcond]

theorem push_blank_reset_witness :
    (({ values := [['a']], cursor := 0, temp := some ['x'] } : History).push
        [' ', ' ']).values = [['a']] ∧
    (({ values := [['a']], cursor := 0, temp := some ['x'] } : History).push
        [' ', ' ']).temp = none ∧
    (({ values := [['a']], cursor := 0, temp := some ['x'] } : History).push
        [' ', ' ']).cursor
      = (({ values := [['a']], cursor := 0, temp := some ['x'] } : History).push
        [' ', ' ']).values.length :=
  ⟨(push_blank_reset _ [' ', ' ']).1 (by decide),
   (push_blank_reset _ [' ', ' ']).2.1,
   (push_blank_reset _ [' ', ' ']).2.2⟩

theorem encode_char_append (c : Char) (bytes : List Nat) :
    encode_char c bytes = bytes ++ utf8Std c := by
  rcases hdec : decide (c.toNat ≤ 0x7F) with _ | _
  · simp only [encode_char, hdec]
  · have hle : c.toNat ≤ 0x7F := of_decide_eq_true hdec
    simp only [encode_char, hdec, utf8Std]
    rw [if_pos (by omega : c.toNat < 0x80)]
    have : c.toNat % 256 = c.toNat := Nat.mod_eq_of_lt (by omega)
    rw [this]

theorem str_to_bytes_foldl (s : List Char) :
    ∀ acc, s.foldl (fun bytes c => encode_char c bytes) acc
      = acc ++ (s.map utf8Std).flatten := by
  induction s with
  | nil => intro acc; simp [List.foldl_nil]
  | cons c t ih =>
    intro acc
    simp only [List.foldl_cons, List.map_cons, List.flatten_cons]
    rw [encode_char_append, ih, List.append_assoc]

/-- C9: the byte sequence produced by the per-character encoder
`str_to_bytes` (one byte per ASCII character, the multi-byte form
otherwise) equals the standard UTF-8 encoding of the string: the
concatenation of the standard UTF-8 byte sequences of its characters. -/
theorem str_to_bytes_utf8 (s : List Char) :
    str_to_bytes s = (s.map utf8Std).flatten := by
  simpa using str_to_bytes_foldl s []

/-- C10: with a non-empty buffer and the cursor at `len - 1` (one step
before the end), `to_right_jump` changes nothing when the last character is
a space — a no-op although `cursor < len(values)` — and moves the cursor to
`len(values)` when the last character is not a space. -/
theorem to_right_jump_at_last (s : Input) (h1 : s.values ≠ [])
    (h2 : s.cursor = s.values.length - 1) :
    (s.values.getD (s.values.length - 1) ' ' = ' ' → s.to_right_jump = s) ∧
    (s.values.getD (s.values.length - 1) ' ' ≠ ' ' →
      s.to_right_jump = { s with cursor := s.values.length }) := by
  have hlen : 0 < s.values.length := List.length_pos.mpr h1
  have hne : ¬ s.cursor = s.values.length := by omega
  have hnotlt : ¬ (s.cursor + 1 < s.values.length) := by omega
  have hfuel : s.values.length - s.cursor = 1 := by omega
  constructor
  · intro hsp
    have hsp' : s.values.getD s.cursor ' ' = ' ' := by rw [h2]; exact hsp
    simp only [Input.to_right_jump, if_neg hne, if_neg hnotlt, if_pos hsp']
    have hstay : jumpSpaces s.values s.cursor = s.cursor := by
      unfold jumpSpaces
      rw [hfuel]
      simp only [jumpSpacesAux]
      rw [if_neg (fun hc => hnotlt hc.1)]
    rw [hstay]
  · intro hsp
    have hsp' : ¬ s.values.getD s.cursor ' ' = ' ' := by rw [h2]; exact hsp
    simp only [Input.to_right_jump, if_neg hne, if_neg hnotlt, if_neg hsp']
    have hstay : jumpWord s.values s.cursor = s.cursor := by
      unfold jumpWord
      rw [hfuel]
      simp only [jumpWordAux]
      rw [if_neg (fun hc => hnotlt hc.1)]
    have hplus : s.cursor + 1 = s.values.length := by omega
    rw [hstay, hplus]

theorem to_right_jump_at_last_witness :
    ({ values := ['a', 'b'], cursor := 1, prompt := "",
       alt_screen := false } : Input).to_right_jump
      = { values := ['a', 'b'], cursor := 2, prompt := "",
          alt_screen := false } := by
  have step := (to_right_jump_at_last
    { values := ['a', 'b'], cursor := 1, prompt := "", alt_screen := false }
    (by decide) (by decide)).2 (by decide)
  simpa using step

end Ragout
